import Mathlib

/-!
Shallow embedding of the PyWavelets filter-bank transform engine and of the
two Python modules shipped under `pywt/` (`__init__.py` and
`data/_readers.py`), together with proofs of the spec's claims about them.

The transform core itself (`_pywt`, `_multilevel`, `_multidim`, the
stationary variant) is not part of the given sources, so those components
are modelled from the specification text; each such definition carries a
doc comment starting with `Modelled from the spec:`.  Coefficients live in
an arbitrary commutative ring, which contains the exact-arithmetic content
of the floating-point computation.
-/

namespace Pywt

/-- Modelled from the spec: the enumeration of boundary extension modes
(§3 ExtensionMode): zero, constant, symmetric, reflect, periodic,
periodization, smooth, antisymmetric, antireflect. -/
inductive ExtensionMode where
  | zero
  | constant
  | symmetric
  | reflect
  | periodic
  | periodization
  | smooth
  | antisymmetric
  | antireflect
deriving DecidableEq

/-- Modelled from the spec: a wavelet is an immutable value with four
filter-tap sequences (§3 Wavelet): decomposition low/high pass and
reconstruction low/high pass. -/
structure Wavelet (R : Type*) where
  dec_lo : List R
  dec_hi : List R
  rec_lo : List R
  rec_hi : List R

/-- Modelled from the spec: `support_length` is the filter length (§3);
for the orthogonal families all four filters share this length, and the
decomposition low-pass length is the one the output-length formulas use. -/
def Wavelet.support_length {R : Type*} (w : Wavelet R) : Nat :=
  w.dec_lo.length

/-- Modelled from the spec: the error kinds of §7. -/
inductive TransformError where
  | UnknownWaveletError
  | UnknownModeError
  | InputTooShortError
  | MismatchedLengthError
  | LevelTooHighError
  | InvalidAxisError
  | InvalidPathError
deriving DecidableEq

/-- Modelled from the spec: the wavelet registry is an external collaborator
whose coefficient tables are out of scope; the only filter bank the spec pins
down numerically is Haar (§8): decomposition low `[1/√2, 1/√2]`, high
`[1/√2, -1/√2]`, with the matching orthogonal reconstruction pair.  The tap
value `1/√2` is abstracted as a ring element `s` constrained by `2*s^2 = 1`
in the theorems that use it. -/
def haar {R : Type*} [CommRing R] (s : R) : Wavelet R :=
  ⟨[s, s], [s, -s], [s, s], [s, -s]⟩

section Extension

variable {R : Type*} [CommRing R]

/-- Modelled from the spec: the value of the conceptually extended sequence
at integer index `i` (§4.2).  Inside `[0, N)` it is the sample itself;
outside, the mode dictates the value.  For `smooth` the two edge-adjacent
samples are extrapolated linearly; `antireflect` is modelled by one point
reflection through the edge value, which covers all indices the 1D core
reads (extension amount is at most the filter length minus one). -/
def virtualSample (x : List R) (mode : ExtensionMode) (i : ℤ) : R :=
  let N := x.length
  if N = 0 then 0
  else if 0 ≤ i ∧ i < (N : ℤ) then x.getD i.toNat 0
  else
    match mode with
    | .zero => 0
    | .constant => if i < 0 then x.getD 0 0 else x.getD (N - 1) 0
    | .symmetric =>
        let j := (i % (2 * (N : ℤ))).toNat
        if j < N then x.getD j 0 else x.getD (2 * N - 1 - j) 0
    | .reflect =>
        if N = 1 then x.getD 0 0
        else
          let j := (i % (2 * (N : ℤ) - 2)).toNat
          if j < N then x.getD j 0 else x.getD (2 * N - 2 - j) 0
    | .periodic => x.getD (i % (N : ℤ)).toNat 0
    | .periodization => x.getD (i % (N : ℤ)).toNat 0
    | .smooth =>
        if i < 0 then x.getD 0 0 + ((-i : ℤ) : R) * (x.getD 0 0 - x.getD 1 0)
        else x.getD (N - 1) 0 + ((i - ((N : ℤ) - 1)) : R) * (x.getD (N - 1) 0 - x.getD (N - 2) 0)
    | .antisymmetric =>
        let j := (i % (2 * (N : ℤ))).toNat
        if j < N then x.getD j 0 else -(x.getD (2 * N - 1 - j) 0)
    | .antireflect =>
        if i < 0 then 2 * x.getD 0 0 - x.getD (-i).toNat 0
        else 2 * x.getD (N - 1) 0 - x.getD (2 * (N - 1) - i.toNat) 0

/-- Modelled from the spec: `extend(sequence, amount, mode)` returns the
sequence with `amount` virtual samples materialised on each side (§4.2),
so the result has `len(sequence) + 2*amount` elements. -/
def extend (x : List R) (amount : Nat) (mode : ExtensionMode) : List R :=
  List.ofFn (fun j : Fin (x.length + 2 * amount) => virtualSample x mode ((j : ℤ) - (amount : ℤ)))

theorem extend_length (x : List R) (amount : Nat) (mode : ExtensionMode) :
    (extend x amount mode).length = x.length + 2 * amount := by
  simp [extend]

end Extension

section OneDim

variable {R : Type*} [CommRing R]

/-- Modelled from the spec: periodization first pads an odd-length signal to
even length by replicating the last sample (§4.2). -/
def padToEven (x : List R) : List R :=
  if x.length % 2 = 0 then x else x ++ x.drop (x.length - 1)

/-- Modelled from the spec: one output tap of the forward convolution under
cyclic (periodized) indexing — the dot product of the filter with the signal
window starting at `i`, indices wrapping modulo the signal length. -/
def dwtConvAt (f xp : List R) (i : Nat) : R :=
  ∑ m ∈ Finset.range f.length, f.getD m 0 * xp.getD ((i + m) % xp.length) 0

/-- Modelled from the spec: the periodization-mode forward transform (§4.2,
§4.3).  The signal is padded to even length, treated as periodic, convolved
with the decomposition filters and downsampled by 2 (phase 0, which
reproduces the §8 Haar scenario of scaled pairwise sums/differences);
each output has `ceil(N/2)` coefficients. -/
def dwtPer (x : List R) (w : Wavelet R) : List R × List R :=
  (List.ofFn (fun k : Fin ((x.length + 1) / 2) => dwtConvAt w.dec_lo (padToEven x) (2 * k.val)),
   List.ofFn (fun k : Fin ((x.length + 1) / 2) => dwtConvAt w.dec_hi (padToEven x) (2 * k.val)))

/-- Modelled from the spec: the periodization-mode inverse transform (§4.3):
upsample both coefficient arrays by 2, convolve with the respective
reconstruction filters under the same cyclic indexing and sum; the output
length is twice the approximation length. -/
def idwtPer (a d : List R) (w : Wavelet R) : List R :=
  List.ofFn (fun n : Fin (2 * a.length) =>
    (∑ k ∈ Finset.range a.length, ∑ m ∈ Finset.range w.rec_lo.length,
        if (2 * k + m) % (2 * a.length) = n.val then w.rec_lo.getD m 0 * a.getD k 0 else 0)
    + ∑ k ∈ Finset.range d.length, ∑ m ∈ Finset.range w.rec_hi.length,
        if (2 * k + m) % (2 * a.length) = n.val then w.rec_hi.getD m 0 * d.getD k 0 else 0)

/-- Modelled from the spec: the single-level forward transform `dwt` (§4.3).
For periodization the cyclic variant is used; for every other mode the
signal is extended by `support_length - 1` samples on each side, convolved
with the decomposition filters and downsampled by 2, giving
`floor((N + support_length - 1) / 2)` coefficients per output array. -/
def dwt (x : List R) (w : Wavelet R) (mode : ExtensionMode) : List R × List R :=
  if mode = .periodization then dwtPer x w
  else
    (List.ofFn (fun k : Fin ((x.length + w.support_length - 1) / 2) =>
        ∑ m ∈ Finset.range w.dec_lo.length,
          w.dec_lo.getD m 0 * (extend x (w.support_length - 1) mode).getD (2 * k.val + 1 + m) 0),
     List.ofFn (fun k : Fin ((x.length + w.support_length - 1) / 2) =>
        ∑ m ∈ Finset.range w.dec_hi.length,
          w.dec_hi.getD m 0 * (extend x (w.support_length - 1) mode).getD (2 * k.val + 1 + m) 0))

/-- Modelled from the spec: upsampling a coefficient array by inserting a
zero after every entry (§4.3 inverse). -/
def upsampleZeros (a : List R) : List R :=
  a.flatMap (fun v => [v, 0])

/-- Modelled from the spec: full linear convolution of a filter with a
sequence, used by the non-periodized inverse transform. -/
def fullConv (f x : List R) : List R :=
  List.ofFn (fun n : Fin (x.length + f.length - 1) =>
    ∑ m ∈ Finset.range f.length,
      if m ≤ n.val then f.getD m 0 * x.getD (n.val - m) 0 else 0)

/-- Modelled from the spec: the single-level inverse transform `idwt` (§4.3).
For periodization the cyclic variant is used; otherwise both coefficient
arrays are upsampled, convolved with the reconstruction filters, summed,
and trimmed by `support_length - 2` samples at each end. -/
def idwt (a d : List R) (w : Wavelet R) (mode : ExtensionMode) : List R :=
  if mode = .periodization then idwtPer a d w
  else
    List.ofFn (fun n : Fin (2 * a.length + 2 - w.rec_lo.length) =>
      (fullConv w.rec_lo (upsampleZeros a)).getD (n.val + (w.rec_lo.length - 2)) 0
      + (fullConv w.rec_hi (upsampleZeros d)).getD (n.val + (w.rec_hi.length - 2)) 0)

/-- Modelled from the spec: the minimum signal length admitted by a
mode/filter combination (§4.3, §7).  The spec gives no closed formula for
how the minimum depends on the combination; the modes whose extension
formulas read two distinct edge samples (`smooth`, whole-sample `reflect`,
`antireflect`) need at least two samples, every other mode needs at least
one, so an empty signal is always rejected. -/
def minInputLen (mode : ExtensionMode) (support : Nat) : Nat :=
  match mode, support with
  | .smooth, _ => 2
  | .reflect, _ => 2
  | .antireflect, _ => 2
  | _, _ => 1

/-- Modelled from the spec: the checked entry point of the 1D forward
transform — it validates the input length against the mode/filter minimum
and either fails with `InputTooShortError` or returns the coefficient pair
(§4.3, §7: no partial results). -/
def dwtChecked (x : List R) (w : Wavelet R) (mode : ExtensionMode) :
    Except TransformError (List R × List R) :=
  if x.length < minInputLen mode w.support_length then .error .InputTooShortError
  else .ok (dwt x w mode)

theorem dwtPer_fst_length (x : List R) (w : Wavelet R) :
    (dwtPer x w).1.length = (x.length + 1) / 2 := by
  simp [dwtPer]

theorem dwtPer_snd_length (x : List R) (w : Wavelet R) :
    (dwtPer x w).2.length = (x.length + 1) / 2 := by
  simp [dwtPer]

theorem idwtPer_length (a d : List R) (w : Wavelet R) :
    (idwtPer a d w).length = 2 * a.length := by
  simp [idwtPer]

theorem dwt_fst_length (x : List R) (w : Wavelet R) (mode : ExtensionMode) :
    (dwt x w mode).1.length =
      if mode = .periodization then (x.length + 1) / 2
      else (x.length + w.support_length - 1) / 2 := by
  by_cases h : mode = .periodization
  · simp [dwt, h, dwtPer_fst_length]
  · simp [dwt, h]

theorem dwt_snd_length (x : List R) (w : Wavelet R) (mode : ExtensionMode) :
    (dwt x w mode).2.length =
      if mode = .periodization then (x.length + 1) / 2
      else (x.length + w.support_length - 1) / 2 := by
  by_cases h : mode = .periodization
  · simp [dwt, h, dwtPer_snd_length]
  · simp [dwt, h]

end OneDim

section Roundtrip

variable {R : Type*} [CommRing R]

theorem getD_ofFn {n : Nat} (f : Fin n → R) (t : Nat) (ht : t < n) :
    (List.ofFn f).getD t 0 = f ⟨t, ht⟩ := by
  rw [List.getD_eq_getElem _ _ (by simpa using ht)]
  simp [List.getElem_ofFn]

theorem per_sum_collapse (A N n : Nat) (hN : N = 2 * A) (hn : n < N) (u v : Nat → R) :
    (∑ k ∈ Finset.range A,
        ((if 2 * k % N = n then u k else 0) + (if (2 * k + 1) % N = n then v k else 0)))
      = (if n % 2 = 0 then u (n / 2) else v (n / 2)) := by
  have hmem : n / 2 ∈ Finset.range A := by
    rw [Finset.mem_range]
    omega
  rw [Finset.sum_eq_single_of_mem (n / 2) hmem]
  · have e0 : 2 * (n / 2) % N = 2 * (n / 2) := Nat.mod_eq_of_lt (by omega)
    have e1 : (2 * (n / 2) + 1) % N = 2 * (n / 2) + 1 := Nat.mod_eq_of_lt (by omega)
    rw [e0, e1]
    by_cases hp : n % 2 = 0
    · rw [if_pos (by omega), if_neg (by omega), if_pos hp, add_zero]
    · rw [if_neg (by omega), if_pos (by omega), if_neg hp, zero_add]
  · intro b hb hbt
    have hb' : b < A := Finset.mem_range.mp hb
    have e0 : 2 * b % N = 2 * b := Nat.mod_eq_of_lt (by omega)
    have e1 : (2 * b + 1) % N = 2 * b + 1 := Nat.mod_eq_of_lt (by omega)
    rw [e0, e1, if_neg (by omega), if_neg (by omega), add_zero]

/-- Core reconstruction lemma: for the Haar filter bank with tap value `s`
satisfying `2*s^2 = 1`, the periodization-mode inverse transform undoes the
forward transform on every even-length signal. -/
theorem haar_per_roundtrip (s : R) (hs : 2 * s ^ 2 = 1) (x : List R)
    (hev : x.length % 2 = 0) :
    idwtPer (dwtPer x (haar s)).1 (dwtPer x (haar s)).2 (haar s) = x := by
  have hpad : padToEven x = x := by rw [padToEven, if_pos hev]
  have hA2 : 2 * ((x.length + 1) / 2) = x.length := by omega
  apply List.ext_getElem
  · simp only [idwtPer, dwtPer, List.length_ofFn]
    omega
  intro n hn1 hn2
  simp only [idwtPer, dwtPer, haar, List.getElem_ofFn, List.length_ofFn, List.length_cons,
    List.length_nil, Finset.sum_range_succ, Finset.sum_range_zero, List.getD_cons_zero,
    List.getD_cons_succ, zero_add, add_zero, hA2, Fin.coe_cast, Fin.val_mk]
  rw [per_sum_collapse ((x.length + 1) / 2) x.length n (by omega) hn2,
    per_sum_collapse ((x.length + 1) / 2) x.length n (by omega) hn2]
  rw [getD_ofFn _ (n / 2) (by omega), getD_ofFn _ (n / 2) (by omega)]
  simp only [dwtConvAt, hpad, List.length_cons, List.length_nil, Finset.sum_range_succ,
    Finset.sum_range_zero, List.getD_cons_zero, List.getD_cons_succ, zero_add, add_zero]
  have m0 : 2 * (n / 2) % x.length = 2 * (n / 2) := Nat.mod_eq_of_lt (by omega)
  have m1 : (2 * (n / 2) + 1) % x.length = 2 * (n / 2) + 1 := Nat.mod_eq_of_lt (by omega)
  rw [m0, m1]
  rw [← List.getD_eq_getElem x 0 hn2]
  by_cases hp : n % 2 = 0
  · rw [if_pos hp, if_pos hp]
    have h2t : 2 * (n / 2) = n := by omega
    rw [h2t]
    linear_combination (x.getD n 0) * hs
  · rw [if_neg hp, if_neg hp]
    have h2t : 2 * (n / 2) + 1 = n := by omega
    rw [h2t]
    linear_combination (x.getD n 0) * hs

end Roundtrip

section Multilevel

variable {R : Type*} [CommRing R]

/-- Bounded binary logarithm by fuel, used to keep `maxAllowedLevel`
structurally recursive (and hence kernel-evaluable). -/
def log2fuel : Nat → Nat → Nat
  | 0, _ => 0
  | fuel + 1, n => if 2 ≤ n then log2fuel fuel (n / 2) + 1 else 0

/-- Modelled from the spec: `maxAllowedLevel(signalLength, wavelet)` (§4.1)
is the largest level count for which repeated halving keeps a usable
approximation, 0 when no single level is valid.  The §4.1 prose leaves the
exact threshold per mode open, but the §8 concrete scenario
(`maxAllowedLevel(8, haar) = 3`) pins it down as the largest `L` with
`(support_length - 1) * 2^L ≤ N`, i.e. `floor(log2(N / (support_length - 1)))`,
taking a filter shorter than two taps to admit no level. -/
def maxAllowedLevel (signalLength support : Nat) : Nat :=
  if 2 ≤ support then log2fuel signalLength (signalLength / (support - 1)) else 0

/-- Modelled from the spec: the recursive body of `decompose`/`wavedec`
(§4.4): repeatedly apply the 1D forward transform to the running
approximation, collecting one detail array per level; returns the detail
arrays ordered coarsest first plus the final approximation. -/
def wavedecDetails (w : Wavelet R) (mode : ExtensionMode) :
    List R → Nat → List (List R) × List R
  | x, 0 => ([], x)
  | x, level + 1 =>
      let p := dwt x w mode
      let rest := wavedecDetails w mode p.1 level
      (rest.1 ++ [p.2], rest.2)

/-- Modelled from the spec: `wavedec` (§4.4, §6): fails with
`LevelTooHighError` when the requested level count exceeds
`maxAllowedLevel`, otherwise returns `[cD_n, ..., cD_1, cA_n]`. -/
def wavedec (x : List R) (w : Wavelet R) (mode : ExtensionMode) (level : Nat) :
    Except TransformError (List (List R)) :=
  if maxAllowedLevel x.length w.support_length < level then .error .LevelTooHighError
  else
    let p := wavedecDetails w mode x level
    .ok (p.1 ++ [p.2])

end Multilevel

section Stationary

variable {R : Type*} [CommRing R]

/-- Modelled from the spec: filter upsampling for the algorithme à trous
(§4.6): insert `z` zeros between consecutive taps. -/
def upsampleFilter (f : List R) (z : Nat) : List R :=
  match f with
  | [] => []
  | [t] => [t]
  | t :: rest => t :: (List.replicate z 0 ++ upsampleFilter rest z)

/-- Modelled from the spec: one stationary-transform level (§4.6): convolve
the signal with the (upsampled) filter pair without downsampling, under
periodic extension, so both outputs keep the input length. -/
def swtStep (x lo hi : List R) : List R × List R :=
  (List.ofFn (fun n : Fin x.length =>
      ∑ m ∈ Finset.range lo.length, lo.getD m 0 * x.getD ((n.val + m) % x.length) 0),
   List.ofFn (fun n : Fin x.length =>
      ∑ m ∈ Finset.range hi.length, hi.getD m 0 * x.getD ((n.val + m) % x.length) 0))

/-- Modelled from the spec: the level recursion of `swt` (§4.6) — at level
`k+1` (1-based) the filters are upsampled with `2^k - 1` zeros between taps
and the step is applied to the previous level's approximation. -/
def swtAux (w : Wavelet R) : List R → Nat → Nat → List (List R × List R)
  | _, _, 0 => []
  | x, k, level + 1 =>
      let p := swtStep x (upsampleFilter w.dec_lo (2 ^ k - 1)) (upsampleFilter w.dec_hi (2 ^ k - 1))
      p :: swtAux w p.1 (k + 1) level

/-- Modelled from the spec: `swt(signal, wavelet, levels)` (§4.6), the
stationary (non-downsampled) transform returning one
(approximation, detail) pair per level. -/
def swt (x : List R) (w : Wavelet R) (level : Nat) : List (List R × List R) :=
  swtAux w x 0 level

theorem swtStep_fst_length (x lo hi : List R) : (swtStep x lo hi).1.length = x.length := by
  simp [swtStep]

theorem swtStep_snd_length (x lo hi : List R) : (swtStep x lo hi).2.length = x.length := by
  simp [swtStep]

end Stationary

section MultiDim

variable {R : Type*} [CommRing R]

/-- Column `j` of a row-major two-dimensional array. -/
def colList (m : List (List R)) (j : Nat) : List R :=
  m.map (fun row => row.getD j 0)

/-- Modelled from the spec: applying the 1D forward transform along axis 0
of a row-major 2D array (§4.5): each column is transformed, and the
approximation/detail coefficient rows are reassembled. -/
def dwtAxis0 (m : List (List R)) (w : Wavelet R) (mode : ExtensionMode) :
    List (List R) × List (List R) :=
  (List.ofFn (fun k : Fin (dwt (colList m 0) w mode).1.length =>
      List.ofFn (fun j : Fin (m.headD []).length =>
        (dwt (colList m j.val) w mode).1.getD k.val 0)),
   List.ofFn (fun k : Fin (dwt (colList m 0) w mode).2.length =>
      List.ofFn (fun j : Fin (m.headD []).length =>
        (dwt (colList m j.val) w mode).2.getD k.val 0)))

/-- Modelled from the spec: applying the 1D forward transform along axis 1
(within each row) of a row-major 2D array (§4.5). -/
def dwtAxis1 (m : List (List R)) (w : Wavelet R) (mode : ExtensionMode) :
    List (List R) × List (List R) :=
  (m.map (fun row => (dwt row w mode).1), m.map (fun row => (dwt row w mode).2))

/-- Modelled from the spec: `dwtn` on a 2D array with `axes = (0, 1)`
(§4.5): the 1D transform is applied along axis 0 and then along axis 1,
and the four subbands are labeled by per-axis a/d letters, the last axis
varying fastest: "aa", "ad", "da", "dd". -/
def dwtn2d (m : List (List R)) (w : Wavelet R) (mode : ExtensionMode) :
    List (String × List (List R)) :=
  let p0 := dwtAxis0 m w mode
  let paa := dwtAxis1 p0.1 w mode
  let pda := dwtAxis1 p0.2 w mode
  [("aa", paa.1), ("ad", paa.2), ("da", pda.1), ("dd", pda.2)]

end MultiDim

section InitModule

/-- The runtime values that `pywt/__init__.py` can hand out through the
deprecated-attribute table; `ModesEnum` stands for the `Modes` object (the
new extension-mode enumeration re-exported from `_pywt`). -/
inductive ModuleValue where
  | ModesEnum
deriving DecidableEq

/-- The diagnostic categories emitted on deprecated access; `_MODES_warning`
in `pywt/__init__.py` is constructed as a `DeprecationWarning`. -/
inductive WarningKind where
  | DeprecationWarningKind
deriving DecidableEq

/-- The `__warn_on_access__` table of `pywt/__init__.py` (line 39): after
module initialization it holds the single entry mapping the legacy name
`"MODES"` to the `Modes` object together with the deprecation warning. -/
def warnOnAccessTable : List (String × ModuleValue × WarningKind) :=
  [("MODES", ModuleValue.ModesEnum, WarningKind.DeprecationWarningKind)]

/-- Modelled from the spec: the metamodule attribute-access hook installed
by `install(__name__)` (the `_metamodule` source is not under `src/`; §9
describes it as a compatibility layer mapping the old name through a single
translation entry that emits a diagnostic).  Accessing a registered name
returns the registered value and emits the registered warning. -/
def accessDeprecated (name : String) : Option (ModuleValue × WarningKind) :=
  (warnOnAccessTable.find? (fun e => e.1 == name)).map (fun e => e.2)

/-- Python's `str.startswith` on the concrete prefix `"_"`, modelled on the
character sequence of the string. -/
def startsWithUnderscore (s : String) : Bool :=
  "_".data.isPrefixOf s.data

/-- Model of the `__all__` computation in `pywt/__init__.py` (line 28):
`[s for s in dir() if not s.startswith('_')]`, over an arbitrary ambient
namespace listing `dir()`. -/
def computeAll (names : List String) : List String :=
  names.filter (fun s => !(startsWithUnderscore s))

end InitModule

section DataReaders

/-- Model of `functools.cache` (an external stdlib collaborator of
`pywt/data/_readers.py`): one call against an optional memo cell.  On a hit
the memoized value is returned unchanged; on a miss the loader body —
abstracted as the value `compute` it produces, since each reader takes no
arguments — runs once and its result is stored. -/
def cachedStep {α : Type*} (compute : α) : Option α → α × Option α
  | some v => (v, some v)
  | none => (compute, some compute)

/-- The memo cell contents after `n` calls of a `functools.cache`-decorated
zero-argument loader (all five readers `ascent`, `aero`, `camera`, `ecg`,
`nino` in `pywt/data/_readers.py` are decorated this way). -/
def cacheAfter {α : Type*} (compute : α) : Nat → Option α
  | 0 => none
  | n + 1 => (cachedStep compute (cacheAfter compute n)).2

/-- The value returned by call number `n` (0-indexed) of a cached loader. -/
def callResult {α : Type*} (compute : α) (n : Nat) : α :=
  (cachedStep compute (cacheAfter compute n)).1

/-- Column 4 of the loaded `sst_nino3` table (`np.array(sst_csv)[:, 4]` in
`nino`), out-of-range entries reading as 0. -/
def ninoCol4 (table : List (List ℚ)) : List ℚ :=
  table.map (fun row => row.getD 4 0)

/-- The sample count `nino` keeps: only full years,
`n = floor(rows/12) * 12`. -/
def ninoFullYears (rows : Nat) : Nat :=
  rows / 12 * 12

/-- The three-month means in `nino`:
`np.mean(np.reshape(col4[:n], (n//3, -1)), axis=1)` — `n` is divisible by
12, so each of the `n/3` rows of the reshape holds 3 consecutive samples. -/
def ninoRawSST (table : List (List ℚ)) : List ℚ :=
  List.ofFn (fun i : Fin (ninoFullYears table.length / 3) =>
    ((ninoCol4 table).getD (3 * i.val) 0 + (ninoCol4 table).getD (3 * i.val + 1) 0
      + (ninoCol4 table).getD (3 * i.val + 2) 0) / 3)

/-- `np.std(sst, ddof=1)` from `nino`: the square root of the
bias-corrected variance.  The square root itself is `numpy`'s (an external
numeric routine), abstracted as the function parameter `sqrtFn`; only the
shape of the result matters to the claims. -/
def ninoStd (sqrtFn : ℚ → ℚ) (v : List ℚ) : ℚ :=
  sqrtFn (((v.map (fun t => (t - v.sum / (v.length : ℚ)) ^ 2)).sum) / ((v.length : ℚ) - 1))

/-- The standardization step of `nino`: `(sst - mean(sst)) / std(sst, ddof=1)`. -/
def ninoStandardize (sqrtFn : ℚ → ℚ) (v : List ℚ) : List ℚ :=
  v.map (fun t => (t - v.sum / (v.length : ℚ)) / ninoStd sqrtFn v)

/-- Model of `nino()` from `pywt/data/_readers.py`: three-month means of
column 4 over the full-year range, standardized, paired with the time axis
`np.arange(len(sst)) * 0.25 + 1950.0`. -/
def nino (sqrtFn : ℚ → ℚ) (table : List (List ℚ)) : List ℚ × List ℚ :=
  let sst := ninoStandardize sqrtFn (ninoRawSST table)
  (List.ofFn (fun k : Fin sst.length => (k.val : ℚ) * (1 / 4) + 1950), sst)

end DataReaders

section Claims

variable {R : Type*} [CommRing R]

/-- C1 (amended): for every registry wavelet — the spec pins down exactly the
Haar filter bank, whose tap `s` satisfies `2*s^2 = 1` — and every signal of
EVEN length `N ≥ 2*support_length`, `idwt` of `dwt(x, W, periodization)`
under periodization reconstructs `x` exactly.  (As stated over all
`N ≥ 2*support_length` the claim fails for odd `N`: periodization pads to
even length, so the reconstruction has `N + 1` samples — see the
counterexample theorem.) -/
theorem dwt_idwt_periodization_roundtrip (s : R) (hs : 2 * s ^ 2 = 1) (x : List R)
    (hev : x.length % 2 = 0) (_hlen : 2 * (haar s).support_length ≤ x.length) :
    idwt (dwt x (haar s) .periodization).1 (dwt x (haar s) .periodization).2
      (haar s) .periodization = x := by
  have h := haar_per_roundtrip s hs x hev
  simpa [dwt, idwt] using h

/-- C1 counterexample: the signal `[1,2,3,4,5]` over ℝ with the Haar wavelet
(taps `1/√2`) has length `5 ≥ 2*support_length = 4`, satisfying the claim's
hypothesis, yet the periodization round trip does not return it: the
reconstruction has 6 samples (the forward transform pads odd lengths to
even), so no floating-point tolerance can make the two equal. -/
theorem dwt_idwt_periodization_roundtrip_cex :
    2 * (haar ((Real.sqrt 2)⁻¹ : ℝ)).support_length ≤ ([1, 2, 3, 4, 5] : List ℝ).length ∧
    idwt (dwt ([1, 2, 3, 4, 5] : List ℝ) (haar ((Real.sqrt 2)⁻¹)) .periodization).1
        (dwt ([1, 2, 3, 4, 5] : List ℝ) (haar ((Real.sqrt 2)⁻¹)) .periodization).2
        (haar ((Real.sqrt 2)⁻¹)) .periodization ≠ ([1, 2, 3, 4, 5] : List ℝ) := by
  constructor
  · simp [haar, Wavelet.support_length]
  · intro he
    have hlen := congrArg List.length he
    simp [idwt, dwt, idwtPer, dwtPer] at hlen

/-- C1 witness: the round-trip theorem applied to the concrete even-length
signal `[1,2,3,4]` over ℝ with the Haar tap `1/√2`. -/
theorem dwt_idwt_periodization_roundtrip_witness :
    (2 * ((Real.sqrt 2)⁻¹ : ℝ) ^ 2 = 1) ∧
    (([1, 2, 3, 4] : List ℝ).length % 2 = 0) ∧
    (2 * (haar ((Real.sqrt 2)⁻¹ : ℝ)).support_length ≤ ([1, 2, 3, 4] : List ℝ).length) ∧
    idwt (dwt ([1, 2, 3, 4] : List ℝ) (haar ((Real.sqrt 2)⁻¹)) .periodization).1
        (dwt ([1, 2, 3, 4] : List ℝ) (haar ((Real.sqrt 2)⁻¹)) .periodization).2
        (haar ((Real.sqrt 2)⁻¹)) .periodization = ([1, 2, 3, 4] : List ℝ) := by
  have hs : 2 * ((Real.sqrt 2)⁻¹ : ℝ) ^ 2 = 1 := by
    rw [inv_pow, Real.sq_sqrt (by norm_num : (0 : ℝ) ≤ 2)]
    norm_num
  refine ⟨hs, by simp, by simp [haar, Wavelet.support_length], ?_⟩
  exact dwt_idwt_periodization_roundtrip ((Real.sqrt 2)⁻¹) hs ([1, 2, 3, 4] : List ℝ)
    (by simp) (by simp [haar, Wavelet.support_length])

/-- C2: for every signal of length `N ≥ 1` and every wavelet, the
approximation array of `dwt` has length `floor((N + support_length - 1)/2)`
for every mode other than periodization, and exactly `ceil(N/2)` (written
`(N+1)/2`) for periodization. -/
theorem dwt_output_length (x : List R) (w : Wavelet R) (mode : ExtensionMode)
    (_hx : 1 ≤ x.length) :
    (dwt x w mode).1.length =
      if mode = .periodization then (x.length + 1) / 2
      else (x.length + w.support_length - 1) / 2 :=
  dwt_fst_length x w mode

/-- An arbitrary length-4 integer filter bank used to instantiate witnesses:
the shape claims hold for every wavelet, whatever its taps. -/
def intW4 : Wavelet ℤ :=
  ⟨[1, 2, 3, 4], [4, -3, 2, -1], [1, 2, 3, 4], [4, -3, 2, -1]⟩

/-- C2 witness: the output-length theorem applied to the concrete signal
`[1,2,3]` with a length-4 filter, in a non-periodization mode (giving
`floor((3+4-1)/2) = 3`) and in periodization mode (giving `ceil(3/2) = 2`). -/
theorem dwt_output_length_witness :
    (1 ≤ ([1, 2, 3] : List ℤ).length)
    ∧ ((dwt ([1, 2, 3] : List ℤ) intW4 .zero).1.length
        = if ExtensionMode.zero = .periodization then (([1, 2, 3] : List ℤ).length + 1) / 2
          else (([1, 2, 3] : List ℤ).length + intW4.support_length - 1) / 2)
    ∧ ((dwt ([1, 2, 3] : List ℤ) intW4 .periodization).1.length
        = if ExtensionMode.periodization = .periodization
          then (([1, 2, 3] : List ℤ).length + 1) / 2
          else (([1, 2, 3] : List ℤ).length + intW4.support_length - 1) / 2) := by
  refine ⟨by decide, ?_, ?_⟩
  · exact dwt_output_length ([1, 2, 3] : List ℤ) intW4 .zero (by decide)
  · exact dwt_output_length ([1, 2, 3] : List ℤ) intW4 .periodization (by decide)

/-- C6: the checked 1D forward transform fails with `InputTooShortError`
exactly when the signal is empty or shorter than the minimum the mode/filter
combination requires; an `Except.error` result carries no coefficient pair,
so nothing is produced on failure. -/
theorem dwtChecked_error_iff (x : List R) (w : Wavelet R) (mode : ExtensionMode) :
    dwtChecked x w mode = .error .InputTooShortError
      ↔ (x.length = 0 ∨ x.length < minInputLen mode w.support_length) := by
  have hmin : 1 ≤ minInputLen mode w.support_length := by
    cases mode <;> simp [minInputLen]
  rw [dwtChecked]
  by_cases hc : x.length < minInputLen mode w.support_length
  · rw [if_pos hc]
    simp [hc]
  · rw [if_neg hc]
    constructor
    · intro h
      exact absurd h (by simp)
    · intro h
      exfalso
      rcases h with h | h
      · omega
      · exact hc h

theorem swtAux_preserves_length (w : Wavelet R) :
    ∀ (level k : Nat) (x : List R) (p : List R × List R), p ∈ swtAux w x k level →
      p.1.length = x.length ∧ p.2.length = x.length := by
  intro level
  induction level with
  | zero =>
      intro k x p hp
      simp [swtAux] at hp
  | succ n ih =>
      intro k x p hp
      simp only [swtAux] at hp
      rcases List.mem_cons.mp hp with h | h
      · subst h
        exact ⟨swtStep_fst_length _ _ _, swtStep_snd_length _ _ _⟩
      · have hlen := ih (k + 1) _ p h
        rwa [swtStep_fst_length] at hlen

/-- C3: every approximation and every detail array produced by the
stationary transform `swt` has the same length as the input signal, at every
level. -/
theorem swt_preserves_length (x : List R) (w : Wavelet R) (level : Nat)
    (p : List R × List R) (hp : p ∈ swt x w level) :
    p.1.length = x.length ∧ p.2.length = x.length :=
  swtAux_preserves_length w level 0 x p hp

/-- C3 witness: the length-preservation theorem applied to the first
level pair of a concrete two-level stationary transform of `[1,2,3,4]`. -/
theorem swt_preserves_length_witness :
    ((swt ([1, 2, 3, 4] : List ℤ) intW4 2).headD ([], []) ∈ swt ([1, 2, 3, 4] : List ℤ) intW4 2)
    ∧ ((swt ([1, 2, 3, 4] : List ℤ) intW4 2).headD ([], [])).1.length
        = ([1, 2, 3, 4] : List ℤ).length
    ∧ ((swt ([1, 2, 3, 4] : List ℤ) intW4 2).headD ([], [])).2.length
        = ([1, 2, 3, 4] : List ℤ).length := by
  refine ⟨by decide, ?_⟩
  exact swt_preserves_length ([1, 2, 3, 4] : List ℤ) intW4 2 _ (by decide)

/-- C4: requesting more decomposition levels than `maxAllowedLevel` admits
makes `wavedec` fail with `LevelTooHighError`, returning no coefficient
list. -/
theorem wavedec_level_too_high (x : List R) (w : Wavelet R) (mode : ExtensionMode)
    (level : Nat) (h : maxAllowedLevel x.length w.support_length < level) :
    wavedec x w mode level = .error .LevelTooHighError := by
  rw [wavedec, if_pos h]

/-- C4 witness: `maxAllowedLevel(8, haar) = 3`, and the theorem applied to
the concrete 8-sample signal with the Haar wavelet at level 10. -/
theorem wavedec_level_too_high_witness :
    maxAllowedLevel 8 2 = 3
    ∧ (maxAllowedLevel ([1, 2, 3, 4, 5, 6, 7, 8] : List ℝ).length
        (haar ((Real.sqrt 2)⁻¹ : ℝ)).support_length < 10)
    ∧ wavedec ([1, 2, 3, 4, 5, 6, 7, 8] : List ℝ) (haar ((Real.sqrt 2)⁻¹)) .symmetric 10
        = .error .LevelTooHighError := by
  refine ⟨by decide, by decide, ?_⟩
  exact wavedec_level_too_high ([1, 2, 3, 4, 5, 6, 7, 8] : List ℝ)
    (haar ((Real.sqrt 2)⁻¹)) .symmetric 10 (by decide)

theorem colList_length (m : List (List R)) (j : Nat) : (colList m j).length = m.length := by
  simp [colList]

theorem dwtAxis1_per_fst_rows (mm : List (List R)) (w : Wavelet R) (L : Nat)
    (h : ∀ row ∈ mm, row.length = L) :
    ∀ row ∈ (dwtAxis1 mm w .periodization).1, row.length = (L + 1) / 2 := by
  intro row hrow
  simp only [dwtAxis1, List.mem_map] at hrow
  obtain ⟨r, hr, rfl⟩ := hrow
  rw [dwt_fst_length, if_pos rfl, h r hr]

theorem dwtAxis1_per_snd_rows (mm : List (List R)) (w : Wavelet R) (L : Nat)
    (h : ∀ row ∈ mm, row.length = L) :
    ∀ row ∈ (dwtAxis1 mm w .periodization).2, row.length = (L + 1) / 2 := by
  intro row hrow
  simp only [dwtAxis1, List.mem_map] at hrow
  obtain ⟨r, hr, rfl⟩ := hrow
  rw [dwt_snd_length, if_pos rfl, h r hr]

theorem dwtAxis0_fst_rows (m : List (List R)) (w : Wavelet R) (mode : ExtensionMode) :
    ∀ row ∈ (dwtAxis0 m w mode).1, row.length = (m.headD []).length := by
  intro row hrow
  simp only [dwtAxis0, List.mem_ofFn] at hrow
  obtain ⟨i, hi⟩ := hrow
  simp [← hi]

theorem dwtAxis0_snd_rows (m : List (List R)) (w : Wavelet R) (mode : ExtensionMode) :
    ∀ row ∈ (dwtAxis0 m w mode).2, row.length = (m.headD []).length := by
  intro row hrow
  simp only [dwtAxis0, List.mem_ofFn] at hrow
  obtain ⟨i, hi⟩ := hrow
  simp [← hi]

/-- C5: on every 4×4 input and for every wavelet, `dwtn` along axes (0,1)
under periodization returns exactly the four subbands labeled
"aa", "ad", "da", "dd" in canonical last-axis-fastest order, each of shape
2×2. -/
theorem dwtn2d_subbands (m : List (List R)) (w : Wavelet R)
    (hm : m.length = 4) (hr : ∀ row ∈ m, row.length = 4) :
    (dwtn2d m w .periodization).map Prod.fst = ["aa", "ad", "da", "dd"]
    ∧ ∀ pr ∈ dwtn2d m w .periodization, pr.2.length = 2 ∧ ∀ row ∈ pr.2, row.length = 2 := by
  have hhead : (m.headD []).length = 4 := by
    cases m with
    | nil => simp at hm
    | cons a t => exact hr a (by simp)
  have h0flen : (dwtAxis0 m w .periodization).1.length = 2 := by
    simp only [dwtAxis0, List.length_ofFn]
    rw [dwt_fst_length, if_pos rfl, colList_length, hm]
  have h0slen : (dwtAxis0 m w .periodization).2.length = 2 := by
    simp only [dwtAxis0, List.length_ofFn]
    rw [dwt_snd_length, if_pos rfl, colList_length, hm]
  have h0frows : ∀ row ∈ (dwtAxis0 m w .periodization).1, row.length = 4 := by
    intro row hrow
    rw [dwtAxis0_fst_rows m w .periodization row hrow, hhead]
  have h0srows : ∀ row ∈ (dwtAxis0 m w .periodization).2, row.length = 4 := by
    intro row hrow
    rw [dwtAxis0_snd_rows m w .periodization row hrow, hhead]
  constructor
  · simp [dwtn2d]
  · intro pr hpr
    simp only [dwtn2d, List.mem_cons, List.not_mem_nil, or_false] at hpr
    rcases hpr with rfl | rfl | rfl | rfl
    · exact ⟨by simp [dwtAxis1, h0flen], dwtAxis1_per_fst_rows _ w 4 h0frows⟩
    · exact ⟨by simp [dwtAxis1, h0flen], dwtAxis1_per_snd_rows _ w 4 h0frows⟩
    · exact ⟨by simp [dwtAxis1, h0slen], dwtAxis1_per_fst_rows _ w 4 h0srows⟩
    · exact ⟨by simp [dwtAxis1, h0slen], dwtAxis1_per_snd_rows _ w 4 h0srows⟩

/-- A concrete 4×4 integer array for the C5 witness. -/
def m4 : List (List ℤ) :=
  [[1, 2, 3, 4], [5, 6, 7, 8], [9, 10, 11, 12], [13, 14, 15, 16]]

/-- C5 witness: the subband theorem applied to a concrete 4×4 array and a
concrete length-4 filter bank. -/
theorem dwtn2d_subbands_witness :
    (m4.length = 4 ∧ ∀ row ∈ m4, row.length = 4)
    ∧ ((dwtn2d m4 intW4 .periodization).map Prod.fst = ["aa", "ad", "da", "dd"]
       ∧ ∀ pr ∈ dwtn2d m4 intW4 .periodization,
           pr.2.length = 2 ∧ ∀ row ∈ pr.2, row.length = 2) := by
  refine ⟨⟨by decide, by decide⟩, ?_⟩
  exact dwtn2d_subbands m4 intW4 (by decide) (by decide)

/-- C7: accessing the deprecated module attribute `MODES` returns the
`Modes` object together with a `DeprecationWarning`, through the single
registered entry of the `__warn_on_access__` translation table, and the
value handed out is exactly the `Modes` enumeration. -/
theorem MODES_access_deprecated :
    accessDeprecated "MODES"
        = some (ModuleValue.ModesEnum, WarningKind.DeprecationWarningKind)
    ∧ warnOnAccessTable.length = 1
    ∧ (accessDeprecated "MODES").map Prod.fst = some ModuleValue.ModesEnum := by
  refine ⟨by decide, by decide, by decide⟩

/-- C8: every `functools.cache`-memoized zero-argument loader (`ascent`,
`aero`, `camera`, `ecg`, `nino` are all decorated this way) is per-process
deterministic: every call returns the same result as the first call, so in
particular the second and all subsequent calls agree with the first. -/
theorem cached_loader_deterministic {α : Type*} (compute : α) (n : Nat) :
    callResult compute n = callResult compute 0 := by
  have hcell : ∀ m, cacheAfter compute m = none ∨ cacheAfter compute m = some compute := by
    intro m
    induction m with
    | zero =>
        left
        rfl
    | succ k ih =>
        right
        rcases ih with h | h <;> simp [cacheAfter, h, cachedStep]
  rcases hcell n with h | h <;> simp [callResult, h, cachedStep, cacheAfter]

/-- C9: `nino()` returns a pair `(time, sst)` of equal length; the common
length is `(floor(rows/12)*12)/3` where `rows` counts the loaded dataset's
rows; and the time axis is exactly `1950 + 0.25*k` at every index `k`. -/
theorem nino_time_and_length (sqrtFn : ℚ → ℚ) (table : List (List ℚ)) :
    (nino sqrtFn table).1.length = (nino sqrtFn table).2.length
    ∧ (nino sqrtFn table).2.length = table.length / 12 * 12 / 3
    ∧ (nino sqrtFn table).1
        = List.ofFn (fun k : Fin (table.length / 12 * 12 / 3) =>
            1950 + (1 / 4 : ℚ) * (k.val : ℚ)) := by
  have hlen2 : (nino sqrtFn table).2.length = table.length / 12 * 12 / 3 := by
    simp [nino, ninoStandardize, ninoRawSST, ninoFullYears]
  have hlen1 : (nino sqrtFn table).1.length = table.length / 12 * 12 / 3 := by
    simp [nino, ninoStandardize, ninoRawSST, ninoFullYears]
  refine ⟨by rw [hlen1, hlen2], hlen2, ?_⟩
  apply List.ext_getElem
  · rw [hlen1, List.length_ofFn]
  · intro n h1 h2
    simp only [nino, List.getElem_ofFn, Fin.coe_cast, Fin.val_mk]
    ring

/-- C10: every name in the computed `__all__` list is public — no element
begins with an underscore, whatever the ambient `dir()` listing is. -/
theorem all_names_public (names : List String) (s : String) (hs : s ∈ computeAll names) :
    startsWithUnderscore s = false := by
  simp only [computeAll, List.mem_filter, Bool.not_eq_eq_eq_not, Bool.not_true] at hs
  exact hs.2

/-- C10 witness: the publicity theorem applied to a concrete `dir()` listing
containing both public and underscore-prefixed names. -/
theorem all_names_public_witness :
    ("dwt" ∈ computeAll ["dwt", "_pywt", "Modes"])
    ∧ startsWithUnderscore "dwt" = false := by
  refine ⟨by decide, ?_⟩
  exact all_names_public ["dwt", "_pywt", "Modes"] "dwt" (by decide)

end Claims

end Pywt
